import Mathlib

/-!
Verification development for the submarine bearing-rate simulator
(src/main.rs).  The core operations are embedded shallowly: machine
floats are modelled as exact rationals wherever the code is pure
arithmetic and comparison, and as real numbers where trigonometric
functions are involved.
-/

namespace Dreadnought

/-- Model of the constant METERS_PER_NAUTICAL_MILE = 1852.0. -/
def METERS_PER_NAUTICAL_MILE : ℚ := 1852

/-- Model of the constant KNOTS_TO_MPS = METERS_PER_NAUTICAL_MILE / 3600.0. -/
def KNOTS_TO_MPS : ℚ := METERS_PER_NAUTICAL_MILE / 3600

/-- Model of the first loop of normalize_degrees: while angle < 0.0, add 360. -/
def norm_up {α : Type} [LinearOrderedField α] [FloorRing α] (a : α) : α :=
  if a < 0 then norm_up (a + 360) else a
termination_by (⌈(-a) / 360⌉).toNat
decreasing_by
  rename_i h
  have h1 : (0 : α) < -a / 360 := div_pos (by linarith) (by norm_num)
  have h2 : ⌈(-(a + 360)) / 360⌉ = ⌈(-a) / 360⌉ - 1 := by
    have h3 : (-(a + 360)) / 360 = (-a) / 360 - 1 := by ring
    rw [h3, Int.ceil_sub_one]
  have h4 : 0 < ⌈(-a) / 360⌉ := Int.ceil_pos.mpr h1
  omega

/-- Model of the second loop of normalize_degrees: while angle >= 360.0, subtract 360. -/
def norm_down {α : Type} [LinearOrderedField α] [FloorRing α] (a : α) : α :=
  if 360 ≤ a then norm_down (a - 360) else a
termination_by (⌊a / 360⌋).toNat
decreasing_by
  rename_i h
  have h1 : (1 : α) ≤ a / 360 := (one_le_div (by norm_num)).mpr h
  have h2 : ⌊(a - 360) / 360⌋ = ⌊a / 360⌋ - 1 := by
    have h3 : (a - 360) / 360 = a / 360 - 1 := by ring
    rw [h3, Int.floor_sub_one]
  have h4 : 1 ≤ ⌊a / 360⌋ := Int.le_floor.mpr (by exact_mod_cast h1)
  omega

/-- Model of fn normalize_degrees: both loops in sequence. -/
def normalize_degrees {α : Type} [LinearOrderedField α] [FloorRing α] (a : α) : α :=
  norm_down (norm_up a)

/-- Fuel-counted version of the first loop of normalize_degrees, used to express
termination: each unit of fuel allows one iteration of the while loop. -/
def norm_up_fuel {α : Type} [LinearOrderedField α] : ℕ → α → Option α
  | 0, a => if a < 0 then none else some a
  | n + 1, a => if a < 0 then norm_up_fuel n (a + 360) else some a

/-- Fuel-counted version of the second loop of normalize_degrees. -/
def norm_down_fuel {α : Type} [LinearOrderedField α] : ℕ → α → Option α
  | 0, a => if 360 ≤ a then none else some a
  | n + 1, a => if 360 ≤ a then norm_down_fuel n (a - 360) else some a

/-- Model of IEEE round-to-nearest onto the binary32 grid for finite nonzero
values in the normal range: the unit in the last place of x is 2 to the power
of (exponent of x minus 23, for the 24-bit significand of f32), and x rounds
to the nearest multiple of that ulp.  Exact midpoints round half away from
zero here instead of to even, which is immaterial away from ties (the inputs
evaluated below are not ties); subnormals and overflow are not modelled. -/
def f32_round (x : ℚ) : ℚ :=
  (round (x / 2 ^ (Int.log 2 |x| - 23)) : ℚ) * 2 ^ (Int.log 2 |x| - 23)

/-- Model of the f32 addition angle + 360.0 performed by the first loop of
normalize_degrees: the exact sum rounded back to the binary32 grid. -/
def f32_add_360 (a : ℚ) : ℚ := f32_round (a + 360)

/-- Fuel-counted first loop of normalize_degrees over the binary32 addition
model, used to exhibit the non-termination of the source loop on absorbing
finite inputs. -/
def norm_up_f32_fuel : ℕ → ℚ → Option ℚ
  | 0, a => if a < 0 then none else some a
  | n + 1, a => if a < 0 then norm_up_f32_fuel n (f32_add_360 a) else some a

section AngleLemmas

variable {α : Type} [LinearOrderedField α] [FloorRing α]

theorem norm_up_nonneg (a : α) : 0 ≤ norm_up a := by
  induction a using norm_up.induct with
  | case1 a h ih =>
    rw [norm_up]
    simpa [h] using ih
  | case2 a h =>
    rw [norm_up]
    simpa [h] using not_lt.1 h

theorem norm_up_of_nonneg {a : α} (h : 0 ≤ a) : norm_up a = a := by
  rw [norm_up, if_neg (not_lt.2 h)]

theorem norm_down_lt (a : α) : norm_down a < 360 := by
  induction a using norm_down.induct with
  | case1 a h ih =>
    rw [norm_down]
    simpa [h] using ih
  | case2 a h =>
    rw [norm_down]
    simpa [h] using not_le.1 h

theorem norm_down_nonneg (a : α) : 0 ≤ a → 0 ≤ norm_down a := by
  induction a using norm_down.induct with
  | case1 a h ih =>
    intro _
    rw [norm_down, if_pos h]
    exact ih (by linarith)
  | case2 a h =>
    intro ha
    rw [norm_down, if_neg h]
    exact ha

theorem norm_down_of_lt {a : α} (h : a < 360) : norm_down a = a := by
  rw [norm_down, if_neg (not_le.2 h)]

theorem normalize_degrees_nonneg (a : α) : 0 ≤ normalize_degrees a :=
  norm_down_nonneg _ (norm_up_nonneg a)

theorem normalize_degrees_lt (a : α) : normalize_degrees a < 360 :=
  norm_down_lt _

theorem normalize_degrees_of_mem {a : α} (h1 : 0 ≤ a) (h2 : a < 360) :
    normalize_degrees a = a := by
  unfold normalize_degrees
  rw [norm_up_of_nonneg h1, norm_down_of_lt h2]

theorem norm_up_fuel_complete :
    ∀ (n : ℕ) (a : α), (⌈(-a) / 360⌉).toNat ≤ n → norm_up_fuel n a = some (norm_up a) := by
  intro n
  induction n with
  | zero =>
    intro a hn
    have hge : ¬ a < 0 := by
      intro hlt
      have h1 : (0 : α) < -a / 360 := div_pos (by linarith) (by norm_num)
      have h2 : 0 < ⌈(-a) / 360⌉ := Int.ceil_pos.mpr h1
      omega
    rw [norm_up_fuel, if_neg hge, norm_up_of_nonneg (not_lt.1 hge)]
  | succ n ih =>
    intro a hn
    by_cases hlt : a < 0
    · have h1 : (0 : α) < -a / 360 := div_pos (by linarith) (by norm_num)
      have h2 : 0 < ⌈(-a) / 360⌉ := Int.ceil_pos.mpr h1
      have h3 : ⌈(-(a + 360)) / 360⌉ = ⌈(-a) / 360⌉ - 1 := by
        have h4 : (-(a + 360)) / 360 = (-a) / 360 - 1 := by ring
        rw [h4, Int.ceil_sub_one]
      have h5 : (⌈(-(a + 360)) / 360⌉).toNat ≤ n := by omega
      rw [norm_up_fuel, if_pos hlt]
      rw [show norm_up a = norm_up (a + 360) by rw [norm_up, if_pos hlt]]
      exact ih _ h5
    · rw [norm_up_fuel, if_neg hlt, norm_up_of_nonneg (not_lt.1 hlt)]

theorem norm_down_fuel_complete :
    ∀ (n : ℕ) (a : α), (⌊a / 360⌋).toNat ≤ n → norm_down_fuel n a = some (norm_down a) := by
  intro n
  induction n with
  | zero =>
    intro a hn
    have hlt : ¬ 360 ≤ a := by
      intro hge
      have h1 : (1 : α) ≤ a / 360 := (one_le_div (by norm_num)).mpr hge
      have h2 : 1 ≤ ⌊a / 360⌋ := Int.le_floor.mpr (by exact_mod_cast h1)
      omega
    rw [norm_down_fuel, if_neg hlt, norm_down_of_lt (not_le.1 hlt)]
  | succ n ih =>
    intro a hn
    by_cases hge : 360 ≤ a
    · have h1 : (1 : α) ≤ a / 360 := (one_le_div (by norm_num)).mpr hge
      have h2 : 1 ≤ ⌊a / 360⌋ := Int.le_floor.mpr (by exact_mod_cast h1)
      have h3 : ⌊(a - 360) / 360⌋ = ⌊a / 360⌋ - 1 := by
        have h4 : (a - 360) / 360 = a / 360 - 1 := by ring
        rw [h4, Int.floor_sub_one]
      have h5 : (⌊(a - 360) / 360⌋).toNat ≤ n := by omega
      rw [norm_down_fuel, if_pos hge]
      rw [show norm_down a = norm_down (a - 360) by rw [norm_down, if_pos hge]]
      exact ih _ h5
    · rw [norm_down_fuel, if_neg hge, norm_down_of_lt (not_le.1 hge)]

end AngleLemmas

/-- Model of the fixed-timestep state kept by fn main: the running remainder
time_accumulator and the simulation clock current_sim_time_s. -/
structure ClockState where
  time_accumulator : ℚ
  current_sim_time : ℚ
deriving DecidableEq

/-- Model of one frame of the main loop timing logic: dt is added to the
accumulator and then a single if consumes at most one tick, subtracting
time_step_s once and advancing current_sim_time_s once. -/
def frame_step (time_step : ℚ) (s : ClockState) (dt : ℚ) : ClockState :=
  let acc := s.time_accumulator + dt
  if acc ≥ time_step then
    { time_accumulator := acc - time_step,
      current_sim_time := s.current_sim_time + time_step }
  else
    { time_accumulator := acc, current_sim_time := s.current_sim_time }

/-- Model of struct BearingRecord. -/
structure BearingRecord where
  timestamp_s : ℚ
  relative_bearing_deg : ℚ
deriving DecidableEq

/-- Model of the pruning loop in fn main: while the front record has age
strictly greater than the window it is popped, and the loop breaks at the
first record still inside the window. -/
def pruneHistory (current_sim_time window : ℚ) (h : List BearingRecord) :
    List BearingRecord :=
  h.dropWhile (fun r => decide (window < current_sim_time - r.timestamp_s))

/-- Model of history.push_back(BearingRecord { .. }) in fn main. -/
def pushRecord (t b : ℚ) (h : List BearingRecord) : List BearingRecord :=
  h ++ [{ timestamp_s := t, relative_bearing_deg := b }]

/-- Model of one per-tick history update in fn main: append the new record at
the current simulation time, then prune old records against the same time. -/
def tickRecord (window t b : ℚ) (h : List BearingRecord) : List BearingRecord :=
  pruneHistory t window (pushRecord t b h)

/-- Folding a sequence of (time, bearing) record-then-prune steps over a
history, as successive simulation ticks do in fn main. -/
def runHistory (window : ℚ) (steps : List (ℚ × ℚ)) (h : List BearingRecord) :
    List BearingRecord :=
  steps.foldl (fun acc p => tickRecord window p.1 p.2 acc) h

/-- Model of the recorded_bearings update in fn main: iter_mut().find locates
the first entry whose id equals the target id and updates only that entry;
when no entry matches, nothing happens. -/
def recordForContact (window : ℚ) (cid : ℕ) (t b : ℚ) :
    List (ℕ × List BearingRecord) → List (ℕ × List BearingRecord)
  | [] => []
  | (i, h) :: rest =>
    if i = cid then (i, tickRecord window t b h) :: rest
    else (i, h) :: recordForContact window cid t b rest

/-- Model of the speed-decrease branch of fn handle_input:
speed_knots = (speed_knots - speed_change_knots).max(0.0) with
speed_change_knots = 5.0. -/
def speed_decrease (speed_knots : ℚ) : ℚ := max (speed_knots - 5) 0

/-- Model of macroquad Rect as used by fn draw_bearing_rate_graph. -/
structure Rect where
  x : ℚ
  y : ℚ
  w : ℚ
  h : ℚ
deriving DecidableEq

/-- Model of the point conversion in fn draw_bearing_rate_graph:
x = rect.x + rect.w * (1 - time_ago / window) and
y = rect.y + rect.h * (1 - bearing / 360). -/
def graph_point (rect : Rect) (sim_time window : ℚ) (r : BearingRecord) :
    ℚ × ℚ :=
  (rect.x + rect.w * (1 - (sim_time - r.timestamp_s) / window),
   rect.y + rect.h * (1 - r.relative_bearing_deg / 360))

/-- Model of the per-pair plotting decision in fn draw_bearing_rate_graph:
when the absolute bearing difference exceeds 300 the pair is treated as a
wraparound and two segments are drawn, with the wrap y levels chosen by the
comparison record1_bearing > record2_bearing; otherwise one direct segment
is drawn.  Each segment is an ordered pair of screen points. -/
def pair_segments (rect : Rect) (p1 p2 : ℚ × ℚ) (b1 b2 : ℚ) :
    List ((ℚ × ℚ) × (ℚ × ℚ)) :=
  if 300 < |b1 - b2| then
    let p1_wrap_y := if b2 < b1 then rect.y + rect.h else rect.y
    let p2_wrap_y := if b2 < b1 then rect.y else rect.y + rect.h
    [(p1, (p2.1, p1_wrap_y)), (p2, (p1.1, p2_wrap_y))]
  else
    [(p1, p2)]

/-- Model of f32::to_radians: multiplication by pi / 180. -/
noncomputable def to_radians (deg : ℝ) : ℝ := deg * (Real.pi / 180)

/-- Model of f32::to_degrees: multiplication by 180 / pi. -/
noncomputable def to_degrees (rad : ℝ) : ℝ := rad * (180 / Real.pi)

/-- Model of f32::atan2 from the Rust standard library (called as
delta.x.atan2(delta.y), so the first argument plays the role of y in the
usual atan2(y, x) convention): the quadrant-corrected arctangent, with the
IEEE convention atan2(0, 0) = 0 at the origin. -/
noncomputable def atan2 (y x : ℝ) : ℝ :=
  if 0 < x then Real.arctan (y / x)
  else if x < 0 then
    (if 0 ≤ y then Real.arctan (y / x) + Real.pi
     else Real.arctan (y / x) - Real.pi)
  else
    (if 0 < y then Real.pi / 2
     else if y < 0 then -(Real.pi / 2)
     else 0)

/-- Model of fn update_position: converts knots to meters per second with
KNOTS_TO_MPS, builds the clockwise-from-north velocity direction
(sin heading_rad, cos heading_rad), scales by speed and dt, and adds the
displacement to the position. -/
noncomputable def update_position (pos : ℝ × ℝ) (speed_knots heading_deg dt : ℝ) :
    ℝ × ℝ :=
  let speed_mps := speed_knots * (KNOTS_TO_MPS : ℝ)
  let heading_rad := to_radians heading_deg
  (pos.1 + Real.sin heading_rad * speed_mps * dt,
   pos.2 + Real.cos heading_rad * speed_mps * dt)

/-- Model of fn calculate_true_bearing_deg: the angle of the observer-to-target
delta measured from the north axis via atan2(dx, dy), converted to degrees
and normalized to the 0-360 range. -/
noncomputable def calculate_true_bearing_deg (observer_pos target_pos : ℝ × ℝ) : ℝ :=
  let dx := target_pos.1 - observer_pos.1
  let dy := target_pos.2 - observer_pos.2
  normalize_degrees (to_degrees (atan2 dx dy))

section HistoryLemmas

theorem pruneHistory_suffix (now w : ℚ) (h : List BearingRecord) :
    pruneHistory now w h <:+ h :=
  List.dropWhile_suffix _

theorem pruneHistory_head (now w : ℚ) (h : List BearingRecord)
    (hd : BearingRecord) (tl : List BearingRecord)
    (heq : pruneHistory now w h = hd :: tl) : now - hd.timestamp_s ≤ w := by
  induction h with
  | nil => simp [pruneHistory] at heq
  | cons a l ih =>
    rw [pruneHistory, List.dropWhile_cons] at heq
    by_cases hc : w < now - a.timestamp_s
    · rw [if_pos (by simpa using hc)] at heq
      exact ih heq
    · rw [if_neg (by simpa using hc)] at heq
      cases heq
      exact not_lt.1 hc

theorem pruneHistory_ages (now w : ℚ) (h : List BearingRecord)
    (hs : h.Pairwise (fun r s => r.timestamp_s ≤ s.timestamp_s)) :
    ∀ r ∈ pruneHistory now w h, now - r.timestamp_s ≤ w := by
  induction h with
  | nil => simp [pruneHistory]
  | cons a l ih =>
    rw [pruneHistory, List.dropWhile_cons]
    by_cases hc : w < now - a.timestamp_s
    · rw [if_pos (by simpa using hc)]
      exact ih hs.of_cons
    · rw [if_neg (by simpa using hc)]
      intro r hr
      rcases List.mem_cons.1 hr with hra | hrl
      · subst hra
        exact not_lt.1 hc
      · have hts : a.timestamp_s ≤ r.timestamp_s := (List.pairwise_cons.1 hs).1 r hrl
        have := not_lt.1 hc
        linarith

/-- Invariant a per-contact history satisfies at simulation time now: records
are sorted by timestamp, no record is from the future, and every record has
age at most the window. -/
def HistInv (now window : ℚ) (h : List BearingRecord) : Prop :=
  h.Pairwise (fun r s => r.timestamp_s ≤ s.timestamp_s) ∧
  ∀ r ∈ h, r.timestamp_s ≤ now ∧ now - r.timestamp_s ≤ window

theorem tickRecord_inv (window now t b : ℚ) (h : List BearingRecord)
    (hinv : HistInv now window h) (hle : now ≤ t) :
    HistInv t window (tickRecord window t b h) := by
  obtain ⟨hs, hmem⟩ := hinv
  have hs2 : (pushRecord t b h).Pairwise (fun r s => r.timestamp_s ≤ s.timestamp_s) := by
    rw [pushRecord, List.pairwise_append]
    refine ⟨hs, by simp, ?_⟩
    intro r hr s hsmem
    have := (hmem r hr).1
    simp only [List.mem_singleton] at hsmem
    subst hsmem
    simpa using le_trans this hle
  have hsub : (tickRecord window t b h).Sublist (pushRecord t b h) :=
    (pruneHistory_suffix t window (pushRecord t b h)).sublist
  refine ⟨hs2.sublist hsub, ?_⟩
  intro r hr
  have hrpush : r ∈ pushRecord t b h := hsub.mem hr
  have hts : r.timestamp_s ≤ t := by
    rw [pushRecord, List.mem_append] at hrpush
    rcases hrpush with hrh | hrnew
    · exact le_trans (hmem r hrh).1 hle
    · simp only [List.mem_singleton] at hrnew
      subst hrnew
      simp
  exact ⟨hts, pruneHistory_ages t window (pushRecord t b h) hs2 r hr⟩

theorem runHistory_inv (window : ℚ) (steps : List (ℚ × ℚ)) :
    ∀ (now : ℚ) (h : List BearingRecord),
      HistInv now window h →
      List.Chain (fun x y : ℚ => x ≤ y) now (steps.map Prod.fst) →
      HistInv ((steps.map Prod.fst).getLastD now) window (runHistory window steps h) := by
  induction steps with
  | nil =>
    intro now h hinv _
    simpa [runHistory] using hinv
  | cons p rest ih =>
    intro now h hinv hchain
    rw [List.map_cons, List.chain_cons] at hchain
    obtain ⟨h1, h2⟩ := hchain
    rw [List.map_cons, List.getLastD_cons]
    have hstep := tickRecord_inv window now p.1 p.2 h hinv h1
    simpa [runHistory] using ih p.1 (tickRecord window p.1 p.2 h) hstep h2

theorem tickRecord_ne_nil (window t b : ℚ) (h : List BearingRecord)
    (hw : 0 ≤ window) : tickRecord window t b h ≠ [] := by
  intro hnil
  rw [tickRecord, pruneHistory, List.dropWhile_eq_nil_iff] at hnil
  have := hnil ⟨t, b⟩ (by simp [pushRecord])
  simp only [decide_eq_true_eq] at this
  simp at this
  linarith

theorem tickRecord_getLast (window t b : ℚ) (h : List BearingRecord)
    (hw : 0 ≤ window) :
    (tickRecord window t b h).getLast? =
      some { timestamp_s := t, relative_bearing_deg := b } := by
  obtain ⟨pre, hpre⟩ := pruneHistory_suffix t window (pushRecord t b h)
  have hne := tickRecord_ne_nil window t b h hw
  have hlast : (pre ++ tickRecord window t b h).getLast? =
      (tickRecord window t b h).getLast? := List.getLast?_append_of_ne_nil pre hne
  rw [show pre ++ tickRecord window t b h = pushRecord t b h from hpre] at hlast
  rw [← hlast, pushRecord, List.getLast?_concat]

end HistoryLemmas

/-- C1 counterexample: with time_step = 1, an empty accumulator and a frame of
real elapsed time dt = 5/2 (two whole ticks available plus a remainder), the
tick-consumption pass of the main loop leaves accumulated time 3/2, which is
not strictly less than time_step, and advances the simulation clock by only
one tick instead of two: the pass does not consume every whole tick. -/
theorem c1_counterexample :
    (frame_step 1 ⟨0, 0⟩ (5/2)).time_accumulator = 3/2 ∧
    ¬ (frame_step 1 ⟨0, 0⟩ (5/2)).time_accumulator < 1 ∧
    (frame_step 1 ⟨0, 0⟩ (5/2)).current_sim_time = 1 := by
  refine ⟨?_, ?_, ?_⟩ <;> norm_num [frame_step]

/-- C1 (amended): each frame adds dt to the accumulated time and then consumes
at most one whole tick: when the accumulated time reaches time_step it
subtracts time_step once and advances current_sim_time by time_step once,
otherwise it leaves the simulation clock unchanged; consequently the
accumulated time is strictly less than time_step after the pass provided the
pre-pass accumulated time plus dt is below two time steps. -/
theorem c1_clock_single_tick (time_step dt : ℚ) (s : ClockState)
    (hbound : s.time_accumulator + dt < 2 * time_step) :
    (frame_step time_step s dt).time_accumulator < time_step ∧
    (time_step ≤ s.time_accumulator + dt →
      (frame_step time_step s dt).time_accumulator =
        s.time_accumulator + dt - time_step ∧
      (frame_step time_step s dt).current_sim_time =
        s.current_sim_time + time_step) ∧
    (s.time_accumulator + dt < time_step →
      (frame_step time_step s dt).time_accumulator = s.time_accumulator + dt ∧
      (frame_step time_step s dt).current_sim_time = s.current_sim_time) := by
  rw [frame_step]
  by_cases hc : s.time_accumulator + dt ≥ time_step
  · rw [if_pos hc]
    refine ⟨by simp only; linarith, fun _ => ⟨rfl, rfl⟩, fun hlt => absurd hc (not_le.2 hlt)⟩
  · rw [if_neg hc]
    exact ⟨by simp only; linarith [not_le.1 hc], fun hge => absurd hge hc, fun _ => ⟨rfl, rfl⟩⟩

/-- C1 witness for the amended theorem: time_step = 1, accumulator 1/2, frame
dt = 1; one tick is consumed and the remaining accumulated time 1/2 is below
time_step. -/
theorem c1_clock_single_tick_witness :
    ((ClockState.mk (1/2) 0).time_accumulator + 1 < 2 * 1) ∧
    (frame_step 1 ⟨1/2, 0⟩ 1).time_accumulator < 1 :=
  ⟨by norm_num, (c1_clock_single_tick 1 1 ⟨1/2, 0⟩ (by norm_num)).1⟩

/-- C2: after any monotone sequence of record-then-prune steps starting from
the empty history, every remaining record has age at most the window with
respect to the time of the final step; moreover pruning removes records only
from the head (the pruned history is a suffix of the input) and stops at the
first record still within the window (the head of the pruned history, when
present, has age at most the window). -/
theorem c2_prune_invariant (window : ℚ) (steps : List (ℚ × ℚ))
    (hmono : List.Chain' (fun p q : ℚ × ℚ => p.1 ≤ q.1) steps) :
    (∀ r ∈ runHistory window steps [],
      (steps.map Prod.fst).getLastD 0 - r.timestamp_s ≤ window) ∧
    (∀ (now w : ℚ) (hist : List BearingRecord),
      pruneHistory now w hist <:+ hist ∧
      ∀ hd tl, pruneHistory now w hist = hd :: tl → now - hd.timestamp_s ≤ w) := by
  constructor
  · cases steps with
    | nil => simp [runHistory]
    | cons p rest =>
      have hchainP : List.Chain (fun x y : ℚ × ℚ => x.1 ≤ y.1) p rest := hmono
      have hchain : List.Chain (fun x y : ℚ => x ≤ y) p.1
          ((p :: rest).map Prod.fst) := by
        rw [List.map_cons, List.chain_cons]
        exact ⟨le_refl _, (List.chain_map Prod.fst).2 hchainP⟩
      have hrun := runHistory_inv window (p :: rest) p.1 []
        ⟨List.Pairwise.nil, by simp⟩ hchain
      intro r hr
      have hages := hrun.2 r hr
      have hgl : ((p :: rest).map Prod.fst).getLastD 0 =
          ((p :: rest).map Prod.fst).getLastD p.1 := by
        rw [List.map_cons, List.getLastD_cons, List.getLastD_cons]
      rw [hgl]
      exact hages.2
  · intro now w hist
    exact ⟨pruneHistory_suffix now w hist,
      fun hd tl heq => pruneHistory_head now w hist hd tl heq⟩

/-- C2 witness: three ticks at times 0, 1, 3 with window 2; the record from
time 0 is pruned at the third tick and every surviving record has age at most
the window with respect to the final time 3. -/
theorem c2_prune_invariant_witness :
    List.Chain' (fun p q : ℚ × ℚ => p.1 ≤ q.1) [(0, 10), (1, 20), (3, 30)] ∧
    ∀ r ∈ runHistory 2 [(0, 10), (1, 20), (3, 30)] [],
      (([(0, 10), (1, 20), (3, 30)] : List (ℚ × ℚ)).map Prod.fst).getLastD 0 -
        r.timestamp_s ≤ 2 :=
  ⟨by norm_num [List.chain'_cons],
    (c2_prune_invariant 2 [(0, 10), (1, 20), (3, 30)]
      (by norm_num [List.chain'_cons])).1⟩

/-- C3 (code bug evaluation): for adjacent records with bearings 358 and 2 the
difference 356 exceeds the 300 threshold, so the pair is classified as a
wraparound and two segments are drawn instead of one direct line; but with the
graph rectangle (0, 0, 360, 360), where bearing 0 maps to y = 360 and bearing
360 maps to y = 0, the first segment runs from p1 (bearing 358, y = 2) to
y = 360, the level of the bearing-0 boundary that is FAR from 358, and the
second runs from p2 (bearing 2, y = 358) to y = 0, the level of the
bearing-360 boundary that is far from 2: each wrap segment heads to the
opposite boundary from the one the claim (and the comments in the source)
prescribe, and still spans nearly the full bearing range. -/
theorem c3_wraparound_code_bug :
    300 < |(358 : ℚ) - 2| ∧
    graph_point ⟨0, 0, 360, 360⟩ 2 300 ⟨1, 358⟩ = (1794/5, 2) ∧
    graph_point ⟨0, 0, 360, 360⟩ 2 300 ⟨2, 2⟩ = (360, 358) ∧
    pair_segments ⟨0, 0, 360, 360⟩ (1794/5, 2) (360, 358) 358 2 =
      [((1794/5, 2), (360, 360)), ((360, 358), (1794/5, 0))] := by
  refine ⟨by norm_num, ?_, ?_, ?_⟩
  · norm_num [graph_point]
  · norm_num [graph_point]
  · norm_num [pair_segments, abs_of_pos]

/-- C7: the speed-decrease command of handle_input subtracts 5 knots and
clamps at 0, so from any nonnegative starting speed, any number of repeated
speed-decrease commands leaves the speed nonnegative. -/
theorem c7_speed_clamp (s : ℚ) (hs : 0 ≤ s) :
    ∀ n : ℕ, 0 ≤ speed_decrease^[n] s := by
  intro n
  induction n with
  | zero => simpa using hs
  | succ n _ =>
    rw [Function.iterate_succ_apply']
    exact le_max_right _ _

/-- C7 witness: starting from 7 knots, three speed-decrease commands leave a
nonnegative speed. -/
theorem c7_speed_clamp_witness : 0 ≤ (7 : ℚ) ∧ 0 ≤ speed_decrease^[3] (7 : ℚ) :=
  ⟨by norm_num, c7_speed_clamp 7 (by norm_num) 3⟩

/-- C9: recording a bearing for a contact id that has no entry in the
recorded bearings association list is a silent no-op: the list, and so every
other contact history, is returned unchanged. -/
theorem c9_unknown_id_noop (window : ℚ) (cid : ℕ) (t b : ℚ)
    (rb : List (ℕ × List BearingRecord)) (hid : ∀ p ∈ rb, p.1 ≠ cid) :
    recordForContact window cid t b rb = rb := by
  induction rb with
  | nil => rfl
  | cons p rest ih =>
    obtain ⟨i, h⟩ := p
    rw [recordForContact]
    rw [if_neg (hid (i, h) (List.mem_cons_self _ _))]
    rw [ih (fun q hq => hid q (List.mem_cons_of_mem _ hq))]

/-- C9 witness: recording for the unregistered contact id 2 leaves the
association list for contact 1 untouched. -/
theorem c9_unknown_id_noop_witness :
    (∀ p ∈ [((1 : ℕ), ([] : List BearingRecord))], p.1 ≠ 2) ∧
    recordForContact 300 2 1 5 [(1, [])] = [(1, [])] :=
  ⟨by decide, c9_unknown_id_noop 300 2 1 5 [(1, [])] (by decide)⟩

/-- C10: when some entry of the recorded bearings list carries the contact id,
then after the record-then-prune pass of a tick at time t the first entry
found for that id has a non-empty history whose newest (tail) record is
exactly the one appended at time t: the fresh record has age 0 and the prune
removes only records whose age strictly exceeds the positive window. -/
theorem c10_fresh_record_survives (window t b : ℚ) (cid : ℕ)
    (rb : List (ℕ × List BearingRecord)) (hw : 0 < window)
    (hfound : ∃ p ∈ rb, p.1 = cid) :
    ∃ h2, (recordForContact window cid t b rb).find? (fun p => p.1 == cid) =
        some (cid, h2) ∧
      h2 ≠ [] ∧
      h2.getLast? = some { timestamp_s := t, relative_bearing_deg := b } := by
  induction rb with
  | nil => simp at hfound
  | cons p rest ih =>
    obtain ⟨i, h⟩ := p
    by_cases hc : i = cid
    · subst hc
      refine ⟨tickRecord window t b h, ?_, ?_, ?_⟩
      · rw [recordForContact, if_pos rfl]
        rw [List.find?_cons_of_pos _ (by simp)]
      · exact tickRecord_ne_nil window t b h hw.le
      · exact tickRecord_getLast window t b h hw.le
    · obtain ⟨q, hq, hqid⟩ := hfound
      rcases List.mem_cons.1 hq with hq1 | hq2
      · subst hq1
        exact absurd hqid hc
      · obtain ⟨h2, hfind, hne, hlast⟩ := ih ⟨q, hq2, hqid⟩
        refine ⟨h2, ?_, hne, hlast⟩
        rw [recordForContact, if_neg hc]
        rw [List.find?_cons_of_neg _ (by simp [hc])]
        exact hfind

/-- C10 witness: the single registered contact 1 with an empty history, after
a tick at time 2 with bearing 7 and window 300, has the fresh record as the
tail of its non-empty history. -/
theorem c10_fresh_record_survives_witness :
    (0 < (300 : ℚ) ∧ ∃ p ∈ [((1 : ℕ), ([] : List BearingRecord))], p.1 = 1) ∧
    ∃ h2, (recordForContact 300 1 2 7 [(1, [])]).find? (fun p => p.1 == 1) =
        some (1, h2) ∧
      h2 ≠ [] ∧
      h2.getLast? = some { timestamp_s := 2, relative_bearing_deg := 7 } :=
  ⟨⟨by norm_num, by decide⟩,
    c10_fresh_record_survives 300 2 7 1 [(1, [])] (by norm_num) (by decide)⟩

/-- C4: for every angle a (machine floats modelled as reals), the normalized
angle lies in the range from 0 inclusive to 360 exclusive, and
normalize_degrees is idempotent. -/
theorem c4_normalize_range_idem :
    ∀ a : ℝ, (0 ≤ normalize_degrees a ∧ normalize_degrees a < 360) ∧
      normalize_degrees (normalize_degrees a) = normalize_degrees a := by
  intro a
  exact ⟨⟨normalize_degrees_nonneg a, normalize_degrees_lt a⟩,
    normalize_degrees_of_mem (normalize_degrees_nonneg a) (normalize_degrees_lt a)⟩

/-- Under the exact-arithmetic idealization (no rounding on the additions and
subtractions) the iterative normalization terminates on every input: for
every angle a there are finite iteration counts under which the fuel-counted
versions of the two loops complete, reaching the value of normalize_degrees.
This does NOT transfer to the binary32 loops of the source, which stall on
absorbing inputs: see the divergence theorem below. -/
theorem exact_model_normalize_terminates :
    ∀ a : ℝ, ∃ m k : ℕ,
      norm_up_fuel m a = some (norm_up a) ∧
      norm_down_fuel k (norm_up a) = some (normalize_degrees a) ∧
      0 ≤ normalize_degrees a ∧ normalize_degrees a < 360 := by
  intro a
  exact ⟨(⌈(-a) / 360⌉).toNat, (⌊norm_up a / 360⌋).toNat,
    norm_up_fuel_complete _ a le_rfl,
    norm_down_fuel_complete _ (norm_up a) le_rfl,
    normalize_degrees_nonneg a, normalize_degrees_lt a⟩

/-- C5 (code bug evaluation): the loops of normalize_degrees operate on f32,
and at the finite representable input -(2 pow 33 + 1024) = -8589935616.0 the
addition of 360.0 is absorbed: the exact sum -8589935256 lies in the binade
from 2 pow 33 to 2 pow 34, where the binary32 grid spacing is 1024, and
rounds back to -8589935616 (distance 360 is below half an ulp).  The first
loop therefore makes no progress and fails to finish within any finite
number of iterations, contradicting termination for every finite float
argument. -/
theorem c5_f32_normalize_diverges :
    f32_add_360 (-(2 ^ 33 + 1024)) = -(2 ^ 33 + 1024) ∧
    ∀ n : ℕ, norm_up_f32_fuel n (-(2 ^ 33 + 1024)) = none := by
  have hval : (-(2 ^ 33 + 1024) : ℚ) = -8589935616 := by norm_num
  have habs : f32_add_360 (-8589935616 : ℚ) = -8589935616 := by
    have hsum : (-8589935616 : ℚ) + 360 = -8589935256 := by norm_num
    rw [f32_add_360, hsum, f32_round]
    have h1 : |(-8589935256 : ℚ)| = (8589935256 : ℚ) := by
      rw [abs_of_nonpos (by norm_num)]
      norm_num
    rw [h1]
    have hnat : Nat.log 2 8589935256 = 33 :=
      @Nat.log_eq_of_pow_le_of_lt_pow 2 33 8589935256 (by norm_num) (by norm_num)
    have h2 : Int.log 2 (8589935256 : ℚ) = 33 := by
      rw [Int.log_ofNat, hnat]
      norm_num
    rw [h2]
    have h3 : (2 : ℚ) ^ ((33 : ℤ) - 23) = 1024 := by norm_num
    rw [h3]
    have h4 : round ((-8589935256 : ℚ) / 1024) = -8388609 := by
      rw [round_eq]
      have h5 : (-8589935256 : ℚ) / 1024 + 1 / 2 = -1073741843 / 128 := by norm_num
      rw [h5]
      rw [Int.floor_eq_iff]
      constructor <;> norm_num
    rw [h4]
    norm_num
  refine ⟨by rw [hval]; exact habs, ?_⟩
  intro n
  induction n with
  | zero => rw [norm_up_f32_fuel, if_pos (by norm_num : (-(2 ^ 33 + 1024) : ℚ) < 0)]
  | succ n ih =>
    rw [norm_up_f32_fuel, if_pos (by norm_num : (-(2 ^ 33 + 1024) : ℚ) < 0)]
    rw [hval, habs, ← hval]
    exact ih

theorem sqrt_two_gt : (1.414 : ℝ) < Real.sqrt 2 := by
  nlinarith [Real.sq_sqrt (show (0 : ℝ) ≤ 2 by norm_num), Real.sqrt_nonneg 2]

theorem sqrt_two_lt : Real.sqrt 2 < 1.4143 := by
  nlinarith [Real.sq_sqrt (show (0 : ℝ) ≤ 2 by norm_num), Real.sqrt_nonneg 2]

/-- C6: update_position adds exactly (sin heading_rad, cos heading_rad) times
speed times 1852 / 3600 times dt to the position, with 0 degrees pointing
north and the angle increasing clockwise; in the reference scenario
(position (5000, 5000), heading 45 degrees, speed 5 knots, dt = 1 second)
one tick moves the position to within 0.01 of (5001.82, 5001.82). -/
theorem c6_update_position :
    (∀ (pos : ℝ × ℝ) (speed heading dt : ℝ),
      update_position pos speed heading dt =
        (pos.1 + Real.sin (heading * (Real.pi / 180)) * (speed * 1852 / 3600) * dt,
         pos.2 + Real.cos (heading * (Real.pi / 180)) * (speed * 1852 / 3600) * dt)) ∧
    |(update_position (5000, 5000) 5 45 1).1 - 5001.82| < 0.01 ∧
    |(update_position (5000, 5000) 5 45 1).2 - 5001.82| < 0.01 := by
  have harg : (45 : ℝ) * (Real.pi / 180) = Real.pi / 4 := by ring
  have hgen : ∀ (pos : ℝ × ℝ) (speed heading dt : ℝ),
      update_position pos speed heading dt =
        (pos.1 + Real.sin (heading * (Real.pi / 180)) * (speed * 1852 / 3600) * dt,
         pos.2 + Real.cos (heading * (Real.pi / 180)) * (speed * 1852 / 3600) * dt) := by
    intro pos speed heading dt
    simp only [update_position, to_radians, KNOTS_TO_MPS, METERS_PER_NAUTICAL_MILE]
    rw [Prod.mk.injEq]
    constructor
    · push_cast
      ring
    · push_cast
      ring
  refine ⟨hgen, ?_, ?_⟩
  · rw [hgen (5000, 5000) 5 45 1]
    simp only [harg, Real.sin_pi_div_four]
    rw [abs_lt]
    constructor <;> nlinarith [sqrt_two_gt, sqrt_two_lt]
  · rw [hgen (5000, 5000) 5 45 1]
    simp only [harg, Real.cos_pi_div_four]
    rw [abs_lt]
    constructor <;> nlinarith [sqrt_two_gt, sqrt_two_lt]

/-- C8: when observer and target coincide the true-bearing computation goes
through atan2(0, 0) = 0 and returns the stable bearing 0 rather than an
undefined value, and with zero speed update_position leaves the position
unchanged. -/
theorem c8_degenerate_inputs :
    (∀ p : ℝ × ℝ, calculate_true_bearing_deg p p = 0) ∧
    (∀ (pos : ℝ × ℝ) (heading dt : ℝ), update_position pos 0 heading dt = pos) := by
  constructor
  · intro p
    show normalize_degrees (to_degrees (atan2 (p.1 - p.1) (p.2 - p.2))) = 0
    rw [sub_self, sub_self]
    have hatan : atan2 0 0 = 0 := by
      rw [atan2]
      norm_num
    rw [hatan]
    have hdeg : to_degrees 0 = 0 := by
      rw [to_degrees]
      ring
    rw [hdeg]
    exact normalize_degrees_of_mem le_rfl (by norm_num)
  · intro pos heading dt
    simp [update_position]

end Dreadnought
